import Mathlib

/-!
Verification of the AdHocVcc routing relay (`HighPowerVehicle.py`,
`CloudServer.py`) against its natural-language specification.

The core of the development is a shallow embedding of
`HPV_GetShortestPath` (Dijkstra's algorithm with a lazy-deletion heap,
bidirectional edges, and path accumulation in the heap entries), of the
relay's per-session main-loop behaviour, of the echo handshake of
`CloudServer_WaitForConnection`, and of the graph wire encoding.

Python artefacts are modelled as follows:
* the graph `map` (a `dict` keyed by node pairs) is an association list
  in insertion order, `GraphMap`;
* `heapq` on `(distance, node, path)` tuples is a list from which
  `popMin` extracts the least element under the same lexicographic
  order Python uses on tuples (`entryLt`); equal tuples are identical
  values, so extracting the first minimal element is value-faithful;
* `float('inf')` distances live in `WithTop Nat`; the `distances`
  dictionary is a total function (every lookup the Python code performs
  is on a key it has inserted, so the default value is never observed);
* `None` (the value Python's relay feeds through the engine after a
  malformed request) is `⊥` of `WithBot Char`;
* uncaught Python exceptions are `Except.error` outcomes.
-/

/-- A heap entry of `HPV_GetShortestPath`: the Python tuple
`(distance, current_node, path)`. -/
abbrev Entry (α : Type) : Type := Nat × α × List α

/-- The graph `map` received from the cloud server: an association list of
`((u, v), w)` pairs in dictionary (insertion) order. -/
abbrev GraphMap (α : Type) : Type := List ((α × α) × Nat)

/-- Python's lexicographic comparison of lists (`path` components of heap
tuples): elementwise, with a strict prefix smaller than the longer list. -/
def listLexLt {α : Type} [LinearOrder α] : List α → List α → Bool
  | [], [] => false
  | [], _ :: _ => true
  | _ :: _, [] => false
  | a :: as, b :: bs =>
    if a < b then true else if b < a then false else listLexLt as bs

/-- Python's lexicographic comparison of the heap tuples
`(distance, node, path)`, the order `heapq` uses. -/
def entryLt {α : Type} [LinearOrder α] (e f : Entry α) : Bool :=
  if e.1 < f.1 then true
  else if f.1 < e.1 then false
  else if e.2.1 < f.2.1 then true
  else if f.2.1 < e.2.1 then false
  else listLexLt e.2.2 f.2.2

/-- Select the least entry (first minimal occurrence) from a nonempty heap,
returning it together with the remaining entries. -/
def minEntry {α : Type} [LinearOrder α] : Entry α → List (Entry α) → Entry α × List (Entry α)
  | e, [] => (e, [])
  | e, f :: fs =>
    if entryLt f e then
      let r := minEntry f fs
      (r.1, e :: r.2)
    else
      let r := minEntry e fs
      (r.1, f :: r.2)

/-- `heapq.heappop`: extract the minimum of the heap, viewed as a multiset of
Python tuples. -/
def popMin {α : Type} [LinearOrder α] : List (Entry α) → Option (Entry α × List (Entry α))
  | [] => none
  | e :: es => some (minEntry e es)

theorem entryLt_imp_fst_le {α : Type} [LinearOrder α] {e f : Entry α}
    (h : entryLt e f = true) : e.1 ≤ f.1 := by
  by_contra hc
  push_neg at hc
  unfold entryLt at h
  rw [if_neg (by omega), if_pos (by omega)] at h
  simp at h

theorem not_entryLt_imp_fst_le {α : Type} [LinearOrder α] {e f : Entry α}
    (h : entryLt e f = false) : f.1 ≤ e.1 := by
  by_contra hc
  push_neg at hc
  unfold entryLt at h
  rw [if_pos hc] at h
  simp at h

theorem minEntry_fst_le {α : Type} [LinearOrder α] (e : Entry α) (es : List (Entry α)) :
    ∀ x ∈ e :: es, (minEntry e es).1.1 ≤ x.1 := by
  induction es generalizing e with
  | nil =>
    intro x hx
    simp only [List.mem_singleton] at hx
    simp [minEntry, hx]
  | cons g gs ih =>
    intro x hx
    simp only [minEntry]
    split_ifs with hlt
    · rcases List.mem_cons.mp hx with hxe | hx2
      · subst hxe
        exact le_trans (ih g g (by simp)) (entryLt_imp_fst_le hlt)
      · exact ih g x hx2
    · rcases List.mem_cons.mp hx with hxe | hx2
      · rw [hxe]
        exact ih e e (by simp)
      · rcases List.mem_cons.mp hx2 with hxg | hx3
        · subst hxg
          exact le_trans (ih e e (by simp)) (not_entryLt_imp_fst_le (by simpa using hlt))
        · exact ih e x (by simp [hx3])

theorem minEntry_perm {α : Type} [LinearOrder α] (e : Entry α) (es : List (Entry α)) :
    (e :: es).Perm ((minEntry e es).1 :: (minEntry e es).2) := by
  induction es generalizing e with
  | nil => simp [minEntry]
  | cons g gs ih =>
    simp only [minEntry]
    split_ifs with hlt
    · exact ((ih g).cons e).trans (List.Perm.swap (minEntry g gs).1 e (minEntry g gs).2)
    · exact (List.Perm.swap g e gs).trans
        (((ih e).cons g).trans (List.Perm.swap (minEntry e gs).1 g (minEntry e gs).2))

theorem popMin_length {α : Type} [LinearOrder α] {pq : List (Entry α)}
    {e : Entry α} {rest : List (Entry α)} (h : popMin pq = some (e, rest)) :
    pq.length = rest.length + 1 := by
  cases pq with
  | nil => simp [popMin] at h
  | cons a as =>
    simp only [popMin, Option.some.injEq] at h
    have := (minEntry_perm a as).length_eq
    rw [h] at this
    simpa using this

/-- Adjacency construction of `HPV_GetShortestPath`: the loop
`for (u, v), w in map.items():` appending `(v, w)` to `graph[u]` and
`(u, w)` to `graph[v]` (bidirectional edges), threaded through an
accumulator so the append order matches the Python iteration order. -/
def buildAdjAux {α : Type} [LinearOrder α] :
    GraphMap α → (α → List (α × Nat)) → (α → List (α × Nat))
  | [], g => g
  | ((u, v), w) :: rest, g =>
    let g1 := Function.update g u (g u ++ [(v, w)])
    let g2 := Function.update g1 v (g1 v ++ [(u, w)])
    buildAdjAux rest g2

/-- The adjacency view `graph` built by `HPV_GetShortestPath`, as a total
function: `graph.get(current_node, [])` returns `[]` for absent keys. -/
def buildAdj {α : Type} [LinearOrder α] (map : GraphMap α) : α → List (α × Nat) :=
  buildAdjAux map (fun _ => [])

/-- The `nodes` set accumulated alongside the adjacency list. -/
def nodesOf {α : Type} [LinearOrder α] : GraphMap α → Finset α
  | [] => ∅
  | ((u, v), _) :: rest => insert u (insert v (nodesOf rest))

theorem buildAdjAux_mem_iff {α : Type} [LinearOrder α] (l : GraphMap α) :
    ∀ (g : α → List (α × Nat)) (n y : α) (w : Nat),
    ((y, w) ∈ buildAdjAux l g n) ↔
      ((y, w) ∈ g n ∨ ((n, y), w) ∈ l ∨ ((y, n), w) ∈ l) := by
  induction l with
  | nil =>
    intro g n y w
    simp [buildAdjAux]
  | cons hd rest ih =>
    obtain ⟨⟨u, v⟩, w0⟩ := hd
    intro g n y w
    show (y, w) ∈ buildAdjAux rest _ n ↔ _
    rw [ih]
    simp only [Function.update_apply, List.mem_cons, List.mem_append,
      List.mem_singleton, Prod.mk.injEq]
    split_ifs with h1 h2 h3 <;> simp_all <;> tauto

theorem buildAdj_mem_iff {α : Type} [LinearOrder α] (map : GraphMap α)
    (n y : α) (w : Nat) :
    ((y, w) ∈ buildAdj map n) ↔ (((n, y), w) ∈ map ∨ ((y, n), w) ∈ map) := by
  rw [buildAdj, buildAdjAux_mem_iff]
  simp

theorem edge_mem_nodesOf {α : Type} [LinearOrder α] {map : GraphMap α}
    {u v : α} {w : Nat} (h : ((u, v), w) ∈ map) :
    u ∈ nodesOf map ∧ v ∈ nodesOf map := by
  induction map with
  | nil => simp at h
  | cons hd rest ih =>
    obtain ⟨⟨a, b⟩, w0⟩ := hd
    rcases List.mem_cons.mp h with heq | hmem
    · obtain ⟨⟨rfl, rfl⟩, rfl⟩ := by exact_mod_cast Prod.mk.injEq .. ▸ heq
      constructor <;> simp [nodesOf]
    · have := ih hmem
      constructor <;> simp [nodesOf, this.1, this.2]

theorem adj_target_mem_nodesOf {α : Type} [LinearOrder α] {map : GraphMap α}
    {n y : α} {w : Nat} (h : (y, w) ∈ buildAdj map n) : y ∈ nodesOf map := by
  rcases (buildAdj_mem_iff map n y w).mp h with h1 | h1
  · exact (edge_mem_nodesOf h1).2
  · exact (edge_mem_nodesOf h1).1

/-- The finite value of a tentative distance; `⊤` (Python's `float('inf')`)
maps to `0`. Used only by the termination measure. -/
def finVal (x : WithTop Nat) : Nat := WithTop.untop' 0 x

/-- Number of nodes of `S` whose tentative distance is still infinite. -/
def countInf {α : Type} [LinearOrder α] (S : Finset α) (dist : α → WithTop Nat) : Nat :=
  (S.filter (fun n => dist n = ⊤)).card

/-- Sum over `S` of the finite tentative distances. -/
def finSum {α : Type} [LinearOrder α] (S : Finset α) (dist : α → WithTop Nat) : Nat :=
  S.sum (fun n => finVal (dist n))

/-- Strict decrease of the distance-map component of the termination measure. -/
def MLt {α : Type} [LinearOrder α] (S : Finset α) (dist' dist : α → WithTop Nat) : Prop :=
  countInf S dist' < countInf S dist ∨
    (countInf S dist' = countInf S dist ∧ finSum S dist' < finSum S dist)

theorem MLt.trans {α : Type} [LinearOrder α] {S : Finset α}
    {d3 d2 d1 : α → WithTop Nat} (h32 : MLt S d3 d2) (h21 : MLt S d2 d1) :
    MLt S d3 d1 := by
  rcases h32 with h | ⟨he, hs⟩ <;> rcases h21 with h' | ⟨he', hs'⟩ <;>
    unfold MLt <;> omega

theorem mlt_update {α : Type} [LinearOrder α] {S : Finset α}
    {dist : α → WithTop Nat} {m : α} {v : Nat}
    (hm : m ∈ S) (hv : (v : WithTop Nat) < dist m) :
    MLt S (Function.update dist m (v : WithTop Nat)) dist := by
  rcases hd : dist m with _ | k
  · left
    have hfe : S.filter (fun n => Function.update dist m (v : WithTop Nat) n = ⊤)
        = (S.filter (fun n => dist n = ⊤)).erase m := by
      ext x
      simp only [Finset.mem_filter, Finset.mem_erase, Function.update_apply]
      by_cases hx : x = m
      · subst hx
        simp [hd]
      · simp [hx]
    rw [countInf, countInf, hfe]
    exact Finset.card_erase_lt_of_mem (Finset.mem_filter.mpr ⟨hm, hd⟩)
  · right
    constructor
    · have hfe : S.filter (fun n => Function.update dist m (v : WithTop Nat) n = ⊤)
          = S.filter (fun n => dist n = ⊤) := by
        ext x
        simp only [Finset.mem_filter, Function.update_apply]
        by_cases hx : x = m
        · subst hx
          simp [hd]
        · simp [hx]
      rw [countInf, countInf, hfe]
    · have hcomp : (fun n => finVal (Function.update dist m (v : WithTop Nat) n))
          = Function.update (fun n => finVal (dist n)) m v := by
        funext x
        simp only [Function.update_apply]
        by_cases hx : x = m
        · subst hx
          simp only [if_pos rfl, finVal]
          exact WithTop.untop'_coe 0 v
        · simp [hx]
      rw [finSum, finSum, hcomp, Finset.sum_update_of_mem hm,
        ← Finset.add_sum_erase S (fun n => finVal (dist n)) hm, Finset.erase_eq]
      rw [WithTop.some_eq_coe] at hd
      have hvk : v < k := by
        rw [hd] at hv
        exact WithTop.coe_lt_coe.mp hv
      have : finVal (dist m) = k := by rw [hd]; rfl
      omega

/-- The relaxation loop `for neighbor, weight in graph.get(current_node, [])`:
each improving neighbor updates `distances[neighbor]` and pushes
`(distance, neighbor, path + [neighbor])`. -/
def relaxList {α : Type} [LinearOrder α] :
    List (α × Nat) → Nat → List α → (α → WithTop Nat) → List (Entry α) →
      ((α → WithTop Nat) × List (Entry α))
  | [], _, _, dist, pq => (dist, pq)
  | (m, u) :: ns, d, p, dist, pq =>
    if ((d + u : Nat) : WithTop Nat) < dist m then
      relaxList ns d p (Function.update dist m ((d + u : Nat) : WithTop Nat))
        (pq ++ [(d + u, m, p ++ [m])])
    else relaxList ns d p dist pq

theorem relaxList_measure {α : Type} [LinearOrder α] (S : Finset α) :
    ∀ (ns : List (α × Nat)) (d : Nat) (p : List α) (dist : α → WithTop Nat)
      (pq : List (Entry α)), (∀ x ∈ ns, x.1 ∈ S) →
    ((relaxList ns d p dist pq).1 = dist ∧ (relaxList ns d p dist pq).2 = pq) ∨
      MLt S (relaxList ns d p dist pq).1 dist := by
  intro ns
  induction ns with
  | nil =>
    intro d p dist pq hmem
    left
    simp [relaxList]
  | cons x ns ih =>
    obtain ⟨m, u⟩ := x
    intro d p dist pq hmem
    rw [relaxList]
    split_ifs with himp
    · have hstep := mlt_update (hmem (m, u) (by simp)) himp
      rcases ih d p _ _ (fun y hy => hmem y (by simp [hy])) with ⟨h1, _⟩ | h1
      · right
        rw [h1]
        exact hstep
      · exact Or.inr (h1.trans hstep)
    · exact ih d p dist pq (fun y hy => hmem y (by simp [hy]))

/-- The `while pq:` loop of `HPV_GetShortestPath`. Pops the least heap tuple;
returns the recorded path as soon as the popped node is the destination
(before the staleness check, as in the source); skips stale entries
(`current_distance > distances[current_node]`); otherwise relaxes every
neighbor. Returns `[]` when the heap empties. -/
def dijkstraLoop {α : Type} [LinearOrder α] (map : GraphMap α) (dest : α)
    (pq : List (Entry α)) (dist : α → WithTop Nat) : List α :=
  match hpop : popMin pq with
  | none => []
  | some (e, rest) =>
    if e.2.1 = dest then e.2.2
    else if (e.1 : WithTop Nat) > dist e.2.1 then dijkstraLoop map dest rest dist
    else
      dijkstraLoop map dest
        (relaxList (buildAdj map e.2.1) e.1 e.2.2 dist rest).2
        (relaxList (buildAdj map e.2.1) e.1 e.2.2 dist rest).1
termination_by (countInf (nodesOf map) dist, finSum (nodesOf map) dist, pq.length)
decreasing_by
· have hlen : rest.length < pq.length := by
    have := popMin_length hpop
    omega
  exact Prod.Lex.right _ (Prod.Lex.right _ hlen)
· have hmem : ∀ x ∈ buildAdj map e.2.1, x.1 ∈ nodesOf map := by
    rintro ⟨y, w⟩ hx
    exact adj_target_mem_nodesOf hx
  rcases relaxList_measure (nodesOf map) (buildAdj map e.2.1) e.1 e.2.2 dist rest hmem
    with ⟨hd, hp⟩ | hml
  · rw [hd, hp]
    have hlen : rest.length < pq.length := by
      have := popMin_length hpop
      omega
    exact Prod.Lex.right _ (Prod.Lex.right _ hlen)
  · rcases hml with hlt | ⟨heq, hlt⟩
    · exact Prod.Lex.left _ _ hlt
    · rw [heq]
      exact Prod.Lex.right _ (Prod.Lex.left _ _ hlt)

/-- Shallow embedding of `HPV_GetShortestPath(source, destination, map)`:
seeds the heap with `(0, source, [source])` and the distance dictionary
with `0` for the source and `float('inf')` elsewhere, then runs the loop. -/
def HPV_GetShortestPath {α : Type} [LinearOrder α]
    (source destination : α) (map : GraphMap α) : List α :=
  dijkstraLoop map destination [(0, source, [source])]
    (fun n => if n = source then 0 else ⊤)

/-- Fuel-indexed twin of `dijkstraLoop`, used to evaluate the loop on concrete
inputs by kernel reduction; `none` means the fuel ran out. -/
def dijkstraFuel {α : Type} [LinearOrder α] :
    Nat → GraphMap α → α → List (Entry α) → (α → WithTop Nat) → Option (List α)
  | 0, _, _, _, _ => none
  | fuel + 1, map, dest, pq, dist =>
    match popMin pq with
    | none => some []
    | some (e, rest) =>
      if e.2.1 = dest then some e.2.2
      else if (e.1 : WithTop Nat) > dist e.2.1 then
        dijkstraFuel fuel map dest rest dist
      else
        dijkstraFuel fuel map dest
          (relaxList (buildAdj map e.2.1) e.1 e.2.2 dist rest).2
          (relaxList (buildAdj map e.2.1) e.1 e.2.2 dist rest).1

theorem dijkstraFuel_sound {α : Type} [LinearOrder α] (map : GraphMap α) (dest : α) :
    ∀ (fuel : Nat) (pq : List (Entry α)) (dist : α → WithTop Nat) (r : List α),
    dijkstraFuel fuel map dest pq dist = some r → dijkstraLoop map dest pq dist = r := by
  intro fuel
  induction fuel with
  | zero =>
    intro pq dist r h
    simp [dijkstraFuel] at h
  | succ fuel ih =>
    intro pq dist r h
    rw [dijkstraLoop.eq_def]
    rw [dijkstraFuel] at h
    rcases hpop : popMin pq with _ | ⟨e, rest⟩ <;> rw [hpop] at h <;> dsimp only at h ⊢
    · exact Option.some.inj h
    · split_ifs at h ⊢ with h1 h2
      · exact Option.some.inj h
      · exact ih rest dist r h
      · exact ih _ _ r h

/-- Weighted walk over an adjacency view: `IsWPath adj a p b w` states that
the node sequence `p` runs from `a` to `b`, each step traversing an entry of
the adjacency list, with traversed weights summing to `w`. -/
inductive IsWPath {α : Type} (adj : α → List (α × Nat)) : α → List α → α → Nat → Prop
  | refl (a : α) : IsWPath adj a [a] a 0
  | cons {a b c : α} {p : List α} {u d : Nat} :
      (b, u) ∈ adj a → IsWPath adj b p c d → IsWPath adj a (a :: p) c (u + d)

theorem IsWPath.ne_nil {α : Type} {adj : α → List (α × Nat)} {a b : α}
    {p : List α} {w : Nat} (h : IsWPath adj a p b w) : p ≠ [] := by
  cases h <;> simp

theorem IsWPath.head_eq {α : Type} {adj : α → List (α × Nat)} {a b : α}
    {p : List α} {w : Nat} (h : IsWPath adj a p b w) : p.head? = some a := by
  cases h <;> rfl

theorem IsWPath.last_eq {α : Type} {adj : α → List (α × Nat)} {a b : α}
    {p : List α} {w : Nat} (h : IsWPath adj a p b w) : p.getLast? = some b := by
  induction h with
  | refl a => rfl
  | cons hadj htail ih =>
    rename_i a b c p u d
    cases p with
    | nil => exact absurd rfl htail.ne_nil
    | cons x xs => rw [List.getLast?_cons_cons]; exact ih

theorem IsWPath.snoc {α : Type} {adj : α → List (α × Nat)} {a b c : α}
    {p : List α} {w u : Nat} (h : IsWPath adj a p b w) (hadj : (c, u) ∈ adj b) :
    IsWPath adj a (p ++ [c]) c (w + u) := by
  induction h with
  | refl a =>
    have := IsWPath.cons hadj (IsWPath.refl c)
    simpa using this
  | cons hadj2 htail ih =>
    rename_i a2 b2 c2 p2 u2 d2
    have := IsWPath.cons hadj2 (ih hadj)
    simpa [Nat.add_assoc] using this

theorem IsWPath.compose {α : Type} {adj : α → List (α × Nat)} {s n d : α}
    {p q : List α} {w1 w2 : Nat} (h1 : IsWPath adj s p n w1)
    (h2 : IsWPath adj n q d w2) : IsWPath adj s (p.dropLast ++ q) d (w1 + w2) := by
  induction h1 with
  | refl a => simpa using h2
  | cons hadj htail ih =>
    rename_i a b c pp u dd
    have hne := htail.ne_nil
    cases pp with
    | nil => exact absurd rfl hne
    | cons x xs =>
      have := IsWPath.cons hadj (ih h2)
      simpa [Nat.add_assoc] using this

theorem IsWPath.chain {α : Type} {adj : α → List (α × Nat)} {a b : α}
    {p : List α} {w : Nat} (h : IsWPath adj a p b w) :
    List.Chain' (fun x y => ∃ u, (y, u) ∈ adj x) p := by
  induction h with
  | refl a => simp
  | cons hadj htail ih =>
    rename_i a2 b2 c2 p2 u2 d2
    rw [List.chain'_cons']
    refine ⟨?_, ih⟩
    intro y hy
    rw [htail.head_eq] at hy
    cases hy
    exact ⟨u2, hadj⟩

/-- `w` is the least total weight of any walk from `s` to `n`. -/
def IsMinWalk {α : Type} (adj : α → List (α × Nat)) (s n : α) (w : Nat) : Prop :=
  (∃ p, IsWPath adj s p n w) ∧ ∀ p' w', IsWPath adj s p' n w' → w ≤ w'

theorem isMinWalk_of_reachable {α : Type} {adj : α → List (α × Nat)} {s n : α}
    (h : ∃ p w, IsWPath adj s p n w) : ∃ w, IsMinWalk adj s n w := by
  obtain ⟨p, w, hp⟩ := h
  have hne : {w | ∃ p, IsWPath adj s p n w}.Nonempty := ⟨w, p, hp⟩
  refine ⟨sInf {w | ∃ p, IsWPath adj s p n w}, Nat.sInf_mem hne, ?_⟩
  intro p' w' hp'
  exact Nat.sInf_le ⟨p', hp'⟩

theorem popMin_perm {α : Type} [LinearOrder α] {pq : List (Entry α)}
    {e : Entry α} {rest : List (Entry α)} (h : popMin pq = some (e, rest)) :
    pq.Perm (e :: rest) := by
  cases pq with
  | nil => simp [popMin] at h
  | cons a as =>
    simp only [popMin, Option.some.injEq] at h
    have := minEntry_perm a as
    rw [h] at this
    simpa using this

theorem popMin_min {α : Type} [LinearOrder α] {pq : List (Entry α)}
    {e : Entry α} {rest : List (Entry α)} (h : popMin pq = some (e, rest)) :
    ∀ f ∈ pq, e.1 ≤ f.1 := by
  cases pq with
  | nil => simp [popMin] at h
  | cons a as =>
    simp only [popMin, Option.some.injEq] at h
    intro f hf
    have := minEntry_fst_le a as f hf
    rw [h] at this
    exact this

theorem relaxList_spec {α : Type} [LinearOrder α] :
    ∀ (ns : List (α × Nat)) (d : Nat) (p : List α) (dist : α → WithTop Nat)
      (pq : List (Entry α)),
    (∀ x, (relaxList ns d p dist pq).1 x ≤ dist x) ∧
    (∀ x, (relaxList ns d p dist pq).1 x ≠ dist x →
      ∃ u, (x, u) ∈ ns ∧
        (relaxList ns d p dist pq).1 x = ((d + u : Nat) : WithTop Nat) ∧
        ((d + u, x, p ++ [x]) : Entry α) ∈ (relaxList ns d p dist pq).2) ∧
    (∀ e ∈ (relaxList ns d p dist pq).2,
      e ∈ pq ∨ ∃ m u, (m, u) ∈ ns ∧ e = (d + u, m, p ++ [m])) ∧
    (∀ m u, (m, u) ∈ ns →
      (relaxList ns d p dist pq).1 m ≤ ((d + u : Nat) : WithTop Nat)) ∧
    (∀ e ∈ pq, e ∈ (relaxList ns d p dist pq).2) := by
  intro ns
  induction ns with
  | nil =>
    intro d p dist pq
    refine ⟨fun x => le_refl _, fun x hx => absurd rfl hx, ?_, ?_, ?_⟩ <;>
      simp [relaxList]
  | cons hd ns ih =>
    obtain ⟨m, u⟩ := hd
    intro d p dist pq
    rw [relaxList]
    split_ifs with himp
    · obtain ⟨ih1, ih2, ih3, ih4, ih5⟩ :=
        ih d p (Function.update dist m ((d + u : Nat) : WithTop Nat))
          (pq ++ [(d + u, m, p ++ [m])])
      refine ⟨?_, ?_, ?_, ?_, ?_⟩
      · intro x
        refine le_trans (ih1 x) ?_
        rw [Function.update_apply]
        split_ifs with hx
        · subst hx
          exact le_of_lt himp
        · exact le_refl _
      · intro x hx
        by_cases hx2 : (relaxList ns d p (Function.update dist m ((d + u : Nat) : WithTop Nat))
            (pq ++ [(d + u, m, p ++ [m])])).1 x
            = Function.update dist m ((d + u : Nat) : WithTop Nat) x
        · have hxm : x = m := by
            by_contra hxm
            rw [Function.update_apply, if_neg hxm] at hx2
            exact hx (by rw [hx2])
          subst hxm
          refine ⟨u, by simp, ?_, ?_⟩
          · rw [hx2, Function.update_apply, if_pos rfl]
          · exact ih5 _ (by simp)
        · obtain ⟨u', hu1, hu2, hu3⟩ := ih2 x hx2
          exact ⟨u', by simp [hu1], hu2, hu3⟩
      · intro e he
        rcases ih3 e he with hmem | ⟨m', u', hm1, hm2⟩
        · rcases List.mem_append.mp hmem with hmem2 | hmem2
          · exact Or.inl hmem2
          · simp only [List.mem_singleton] at hmem2
            exact Or.inr ⟨m, u, by simp, hmem2⟩
        · exact Or.inr ⟨m', u', by simp [hm1], hm2⟩
      · intro m0 u0 hm0
        rcases List.mem_cons.mp hm0 with heq | hmem
        · obtain ⟨h1, h2⟩ := Prod.mk.injEq .. ▸ heq
          subst h1; subst h2
          refine le_trans (ih1 m0) ?_
          rw [Function.update_apply, if_pos rfl]
        · exact ih4 m0 u0 hmem
      · intro e he
        exact ih5 e (by simp [he])
    · obtain ⟨ih1, ih2, ih3, ih4, ih5⟩ := ih d p dist pq
      refine ⟨ih1, ?_, ?_, ?_, ih5⟩
      · intro x hx
        obtain ⟨u', hu1, hu2, hu3⟩ := ih2 x hx
        exact ⟨u', by simp [hu1], hu2, hu3⟩
      · intro e he
        rcases ih3 e he with hmem | ⟨m', u', hm1, hm2⟩
        · exact Or.inl hmem
        · exact Or.inr ⟨m', u', by simp [hm1], hm2⟩
      · intro m0 u0 hm0
        rcases List.mem_cons.mp hm0 with heq | hmem
        · obtain ⟨h1, h2⟩ := Prod.mk.injEq .. ▸ heq
          subst h1; subst h2
          exact le_trans (ih1 m0) (le_of_not_lt himp)
        · exact ih4 m0 u0 hmem

/-- Loop invariant of `HPV_GetShortestPath`:
* `paths`: every heap tuple `(d, n, p)` records a genuine walk `p` from the
  source to `n` of total weight `d`;
* `realized`: every finite tentative distance is the weight of a genuine walk;
* `src0`: `distances[source]` stays `0`;
* `cover`: a node whose tentative distance equals its true shortest distance
  either still has a heap entry at that distance, or (if it is not the
  destination, which is returned before being relaxed) has had all its
  neighbors relaxed from that distance. -/
structure DijkInv {α : Type} [LinearOrder α] (map : GraphMap α) (src dst : α)
    (dist : α → WithTop Nat) (pq : List (Entry α)) : Prop where
  paths : ∀ e ∈ pq, IsWPath (buildAdj map) src e.2.2 e.2.1 e.1
  realized : ∀ n, dist n ≠ ⊤ →
    ∃ p w, IsWPath (buildAdj map) src p n w ∧ dist n = ((w : Nat) : WithTop Nat)
  src0 : dist src = 0
  cover : ∀ n w, IsMinWalk (buildAdj map) src n w → dist n = ((w : Nat) : WithTop Nat) →
    (∃ p, ((w, n, p) : Entry α) ∈ pq) ∨
      (n ≠ dst ∧ ∀ x ∈ buildAdj map n, dist x.1 ≤ ((w + x.2 : Nat) : WithTop Nat))

theorem dijkInv_init {α : Type} [LinearOrder α] (map : GraphMap α) (src dst : α) :
    DijkInv map src dst (fun n => if n = src then 0 else ⊤) [(0, src, [src])] := by
  refine ⟨?_, ?_, by simp, ?_⟩
  · intro e he
    simp only [List.mem_singleton] at he
    subst he
    exact IsWPath.refl src
  · intro n hn
    by_cases hs : n = src
    · subst hs
      exact ⟨[n], 0, IsWPath.refl n, by simp⟩
    · simp [hs] at hn
  · intro n w hmin hdist
    by_cases hs : n = src
    · subst hs
      left
      rw [if_pos rfl] at hdist
      have hw : w = 0 := by exact_mod_cast hdist.symm
      subst hw
      exact ⟨[n], by simp⟩
    · rw [if_neg hs] at hdist
      exact absurd hdist.symm (WithTop.coe_ne_top)

theorem dijkInv_stale {α : Type} [LinearOrder α] {map : GraphMap α} {src dst : α}
    {dist : α → WithTop Nat} {pq rest : List (Entry α)} {e : Entry α}
    (hinv : DijkInv map src dst dist pq) (hpop : popMin pq = some (e, rest))
    (hstale : dist e.2.1 < (e.1 : WithTop Nat)) :
    DijkInv map src dst dist rest := by
  have hperm := popMin_perm hpop
  refine ⟨?_, hinv.realized, hinv.src0, ?_⟩
  · intro f hf
    exact hinv.paths f (hperm.mem_iff.mpr (by simp [hf]))
  · intro n w hmin hdist
    rcases hinv.cover n w hmin hdist with ⟨p, hp⟩ | hrel
    · have : (w, n, p) ∈ e :: rest := hperm.mem_iff.mp hp
      rcases List.mem_cons.mp this with heq | hmem
      · exfalso
        rw [← heq] at hstale
        rw [hdist] at hstale
        exact lt_irrefl _ hstale
      · exact Or.inl ⟨p, hmem⟩
    · exact Or.inr hrel

theorem dijkInv_relax {α : Type} [LinearOrder α] {map : GraphMap α} {src dst : α}
    {dist : α → WithTop Nat} {pq rest : List (Entry α)} {e : Entry α}
    (hinv : DijkInv map src dst dist pq) (hpop : popMin pq = some (e, rest))
    (hne : e.2.1 ≠ dst) (hgo : ¬ dist e.2.1 < (e.1 : WithTop Nat)) :
    DijkInv map src dst
      (relaxList (buildAdj map e.2.1) e.1 e.2.2 dist rest).1
      (relaxList (buildAdj map e.2.1) e.1 e.2.2 dist rest).2 := by
  have hperm := popMin_perm hpop
  have hpe : IsWPath (buildAdj map) src e.2.2 e.2.1 e.1 :=
    hinv.paths e (hperm.mem_iff.mpr (by simp))
  obtain ⟨s1, s2, s3, s4, s5⟩ :=
    relaxList_spec (buildAdj map e.2.1) e.1 e.2.2 dist rest
  refine ⟨?_, ?_, ?_, ?_⟩
  · intro f hf
    rcases s3 f hf with hmem | ⟨m, u, hm1, hm2⟩
    · exact hinv.paths f (hperm.mem_iff.mpr (by simp [hmem]))
    · subst hm2
      exact hpe.snoc hm1
  · intro n hn
    by_cases hch : (relaxList (buildAdj map e.2.1) e.1 e.2.2 dist rest).1 n = dist n
    · rw [hch] at hn ⊢
      exact hinv.realized n hn
    · obtain ⟨u, hu1, hu2, _⟩ := s2 n hch
      exact ⟨e.2.2 ++ [n], e.1 + u, hpe.snoc hu1, hu2⟩
  · by_cases hch : (relaxList (buildAdj map e.2.1) e.1 e.2.2 dist rest).1 src = dist src
    · rw [hch]
      exact hinv.src0
    · exfalso
      obtain ⟨u, _, hu2, _⟩ := s2 src hch
      have h1 : (relaxList (buildAdj map e.2.1) e.1 e.2.2 dist rest).1 src ≤ dist src :=
        s1 src
    
      rw [hinv.src0, hu2] at h1
      have : (e.1 + u : Nat) = 0 := by exact_mod_cast le_antisymm h1 (by simp)
      apply hch
      rw [hu2, hinv.src0, this]
      simp
  · intro n w hmin hdist
    by_cases hch : (relaxList (buildAdj map e.2.1) e.1 e.2.2 dist rest).1 n = dist n
    · rw [hch] at hdist
      rcases hinv.cover n w hmin hdist with ⟨q, hq⟩ | ⟨hnd, hrel⟩
      · have : (w, n, q) ∈ e :: rest := hperm.mem_iff.mp hq
        rcases List.mem_cons.mp this with heq | hmem
        · right
          have hw : w = e.1 := congrArg Prod.fst heq
          have hn2 : n = e.2.1 := congrArg (fun z => z.2.1) heq
          subst hw
          refine ⟨hn2 ▸ hne, ?_⟩
          rintro ⟨m, u⟩ hm
          rw [hn2] at hm
          exact s4 m u hm
        · exact Or.inl ⟨q, s5 _ hmem⟩
      · refine Or.inr ⟨hnd, ?_⟩
        rintro ⟨m, u⟩ hm
        exact le_trans (s1 m) (hrel (m, u) hm)
    · obtain ⟨u, hu1, hu2, hu3⟩ := s2 n hch
      rw [hdist] at hu2
      have hwu : w = e.1 + u := by exact_mod_cast hu2
      subst hwu
      exact Or.inl ⟨e.2.2 ++ [n], hu3⟩

theorem dijk_escape_aux {α : Type} [LinearOrder α] {map : GraphMap α} {src dst : α}
    {dist : α → WithTop Nat} {pq : List (Entry α)} {wmin : Nat} :
    ∀ (n : α) (q : List α) (wq : Nat), IsWPath (buildAdj map) n q dst wq →
    DijkInv map src dst dist pq → IsMinWalk (buildAdj map) src dst wmin →
    ∀ wn, IsMinWalk (buildAdj map) src n wn →
      dist n = ((wn : Nat) : WithTop Nat) → wn + wq = wmin →
    ∃ f ∈ pq, f.1 ≤ wmin := by
  intro n q wq hq
  induction hq with
  | refl a =>
    intro hinv hm wn hmn hdn hsum
    rcases hinv.cover a wn hmn hdn with ⟨p, hp⟩ | ⟨hnd, _⟩
    · exact ⟨(wn, a, p), hp, by omega⟩
    · exact absurd rfl hnd
  | cons hedge hrest ih =>
    rename_i a b c p u dd
    intro hinv hm wn hmn hdn hsum
    rcases hinv.cover a wn hmn hdn with ⟨pp, hp⟩ | ⟨_, hrel⟩
    · exact ⟨(wn, a, pp), hp, by omega⟩
    · have hdb_le : dist b ≤ ((wn + u : Nat) : WithTop Nat) := hrel (b, u) hedge
      have hminb : IsMinWalk (buildAdj map) src b (wn + u) := by
        constructor
        · obtain ⟨pa, hpa⟩ := hmn.1
          exact ⟨pa ++ [b], hpa.snoc hedge⟩
        · intro p' w' hp'
          by_contra hlt
          push_neg at hlt
          have := hm.2 (p'.dropLast ++ p) (w' + dd) (hp'.compose hrest)
          omega
      have hdb : dist b = ((wn + u : Nat) : WithTop Nat) := by
        have hne_top : dist b ≠ ⊤ := by
          intro ht
          rw [ht] at hdb_le
          exact absurd hdb_le (by simp)
        obtain ⟨pb, wb, hpb, hdistb⟩ := hinv.realized b hne_top
        have h1 : wn + u ≤ wb := hminb.2 pb wb hpb
        have h2 : wb ≤ wn + u := by
          rw [hdistb] at hdb_le
          exact_mod_cast hdb_le
        rw [hdistb]
        congr 1
        omega
      exact ih hinv hm (wn + u) hminb hdb (by omega)

theorem dijk_escape {α : Type} [LinearOrder α] {map : GraphMap α} {src dst : α}
    {dist : α → WithTop Nat} {pq : List (Entry α)} {wmin : Nat}
    (hinv : DijkInv map src dst dist pq)
    (hm : IsMinWalk (buildAdj map) src dst wmin) :
    ∃ f ∈ pq, f.1 ≤ wmin := by
  obtain ⟨pm, hpm⟩ := hm.1
  refine dijk_escape_aux src pm wmin hpm hinv hm 0 ?_ ?_ (by omega)
  · exact ⟨⟨[src], IsWPath.refl src⟩, fun p' w' _ => Nat.zero_le w'⟩
  · rw [hinv.src0]
    rfl

theorem dijkstraLoop_minimal {α : Type} [LinearOrder α] (map : GraphMap α)
    (src dst : α) :
    ∀ (pq : List (Entry α)) (dist : α → WithTop Nat), DijkInv map src dst dist pq →
    ∀ wmin, IsMinWalk (buildAdj map) src dst wmin →
    ∃ d, IsWPath (buildAdj map) src (dijkstraLoop map dst pq dist) dst d ∧ d ≤ wmin := by
  intro pq dist
  induction pq, dist using dijkstraLoop.induct map dst with
  | case1 pq dist hpop =>
    intro hinv wmin hm
    obtain ⟨f, hf, _⟩ := dijk_escape hinv hm
    cases pq with
    | nil => simp at hf
    | cons a as => simp [popMin] at hpop
  | case2 pq dist e rest hpop hdst =>
    intro hinv wmin hm
    rw [dijkstraLoop.eq_def, hpop]
    dsimp only
    rw [if_pos hdst]
    refine ⟨e.1, ?_, ?_⟩
    · have := hinv.paths e ((popMin_perm hpop).mem_iff.mpr (by simp))
      rwa [hdst] at this
    · obtain ⟨f, hf, hfle⟩ := dijk_escape hinv hm
      exact le_trans (popMin_min hpop f hf) hfle
  | case3 pq dist e rest hpop hdst hstale ih =>
    intro hinv wmin hm
    rw [dijkstraLoop.eq_def, hpop]
    dsimp only
    rw [if_neg hdst, if_pos hstale]
    exact ih (dijkInv_stale hinv hpop hstale) wmin hm
  | case4 pq dist e rest hpop hdst hstale ih =>
    intro hinv wmin hm
    rw [dijkstraLoop.eq_def, hpop]
    dsimp only
    rw [if_neg hdst, if_neg hstale]
    exact ih (dijkInv_relax hinv hpop hdst hstale) wmin hm

theorem dijkstraLoop_nopath {α : Type} [LinearOrder α] (map : GraphMap α)
    (src dst : α) :
    ∀ (pq : List (Entry α)) (dist : α → WithTop Nat), DijkInv map src dst dist pq →
    (¬ ∃ p w, IsWPath (buildAdj map) src p dst w) →
    dijkstraLoop map dst pq dist = [] := by
  intro pq dist
  induction pq, dist using dijkstraLoop.induct map dst with
  | case1 pq dist hpop =>
    intro hinv hun
    rw [dijkstraLoop.eq_def, hpop]
  | case2 pq dist e rest hpop hdst =>
    intro hinv hun
    exfalso
    have := hinv.paths e ((popMin_perm hpop).mem_iff.mpr (by simp))
    rw [hdst] at this
    exact hun ⟨e.2.2, e.1, this⟩
  | case3 pq dist e rest hpop hdst hstale ih =>
    intro hinv hun
    rw [dijkstraLoop.eq_def, hpop]
    dsimp only
    rw [if_neg hdst, if_pos hstale]
    exact ih (dijkInv_stale hinv hpop hstale) hun
  | case4 pq dist e rest hpop hdst hstale ih =>
    intro hinv hun
    rw [dijkstraLoop.eq_def, hpop]
    dsimp only
    rw [if_neg hdst, if_neg hstale]
    exact ih (dijkInv_relax hinv hpop hdst hstale) hun

theorem getShortestPath_self {α : Type} [LinearOrder α] (map : GraphMap α) (s : α) :
    HPV_GetShortestPath s s map = [s] := by
  rw [HPV_GetShortestPath, dijkstraLoop.eq_def]
  simp [popMin, minEntry]

theorem getShortestPath_reachable {α : Type} [LinearOrder α] (map : GraphMap α)
    (s d : α) (h : ∃ p w, IsWPath (buildAdj map) s p d w) :
    ∃ wd, IsWPath (buildAdj map) s (HPV_GetShortestPath s d map) d wd ∧
      ∀ q w', IsWPath (buildAdj map) s q d w' → wd ≤ w' := by
  obtain ⟨wmin, hmin⟩ := isMinWalk_of_reachable h
  obtain ⟨dd, hp, hle⟩ :=
    dijkstraLoop_minimal map s d _ _ (dijkInv_init map s d) wmin hmin
  exact ⟨dd, hp, fun q w' hq => le_trans hle (hmin.2 q w' hq)⟩

theorem getShortestPath_unreachable {α : Type} [LinearOrder α] (map : GraphMap α)
    (s d : α) (h : ¬ ∃ p w, IsWPath (buildAdj map) s p d w) :
    HPV_GetShortestPath s d map = [] :=
  dijkstraLoop_nopath map s d _ _ (dijkInv_init map s d) h

/-- Walks end at the source or at a node that appears in some edge of the map. -/
theorem IsWPath.last_mem_nodes {α : Type} [LinearOrder α] {map : GraphMap α}
    {s n : α} {p : List α} {w : Nat} (h : IsWPath (buildAdj map) s p n w) :
    n = s ∨ n ∈ nodesOf map := by
  induction h with
  | refl a => exact Or.inl rfl
  | cons hadj htail ih =>
    rename_i a b c p2 u d
    rcases ih with rfl | hmem
    · exact Or.inr (adj_target_mem_nodesOf hadj)
    · exact Or.inr hmem

/-- The reference topology held by the authority (`CloudServer_GlobalGraph`). -/
def CloudServer_GlobalGraph : GraphMap Char :=
  [(('A', 'D'), 1), (('A', 'B'), 6), (('D', 'B'), 2), (('D', 'E'), 1),
   (('E', 'B'), 2), (('E', 'C'), 5), (('B', 'C'), 5)]

theorem char_toNat_lt (c : Char) : c.toNat < 1114112 := by
  rcases c.valid with h | ⟨_, h⟩ <;>
  · simp only [Char.toNat]
    omega

/-- Standard UTF-8 encoding of one character, as byte values. This models the
`str.encode('utf-8')` calls of the Python sources. -/
def encodeChar (c : Char) : List Nat :=
  let n := c.toNat
  if n < 128 then [n]
  else if n < 2048 then [192 + n / 64, 128 + n % 64]
  else if n < 65536 then [224 + n / 4096, 128 + n / 64 % 64, 128 + n % 64]
  else [240 + n / 262144, 128 + n / 4096 % 64, 128 + n / 64 % 64, 128 + n % 64]

/-- UTF-8 encoding of a character sequence (`str.encode('utf-8')`). -/
def utf8Encode : List Char → List Nat
  | [] => []
  | c :: cs => encodeChar c ++ utf8Encode cs

/-- A UTF-8 continuation byte. -/
def isCont (b : Nat) : Bool := decide (128 ≤ b) && decide (b < 192)

/-- Decode one UTF-8-encoded character: given the first byte and the remaining
bytes, return the character and the bytes left over, or `none` if ill-formed. -/
def utf8DecodeOne (b : Nat) (rest : List Nat) : Option (Char × List Nat) :=
  if b < 128 then some (Char.ofNat b, rest)
  else if b < 192 then none
  else if b < 224 then
    match rest with
    | b1 :: rest2 =>
      if isCont b1 then some (Char.ofNat ((b - 192) * 64 + (b1 - 128)), rest2)
      else none
    | [] => none
  else if b < 240 then
    match rest with
    | b1 :: b2 :: rest2 =>
      if isCont b1 && isCont b2 then
        some (Char.ofNat ((b - 224) * 4096 + (b1 - 128) * 64 + (b2 - 128)), rest2)
      else none
    | _ => none
  else if b < 248 then
    match rest with
    | b1 :: b2 :: b3 :: rest2 =>
      if isCont b1 && isCont b2 && isCont b3 then
        some (Char.ofNat ((b - 240) * 262144 + (b1 - 128) * 4096
          + (b2 - 128) * 64 + (b3 - 128)), rest2)
      else none
    | _ => none
  else none

/-- Character-at-a-time UTF-8 decoding loop; the fuel argument (instantiated
with the byte count, which each step strictly decreases) only makes the
recursion structural. -/
def utf8DecodeGo : Nat → List Nat → Option (List Char)
  | _, [] => some []
  | 0, _ :: _ => none
  | fuel + 1, b :: rest =>
    match utf8DecodeOne b rest with
    | none => none
    | some (c, rest2) => (utf8DecodeGo fuel rest2).map (fun cs => c :: cs)

/-- UTF-8 decoding of a byte sequence, as performed by `bytes.decode('utf-8')`;
`none` models the `UnicodeDecodeError` Python raises on ill-formed input.
(The model reassembles code points without re-checking for overlong forms;
only its behaviour on well-formed encodings and on the ill-formed inputs used
below matters.) -/
def utf8Decode (l : List Nat) : Option (List Char) := utf8DecodeGo l.length l

theorem utf8DecodeOne_length {b : Nat} {rest rest2 : List Nat} {c : Char}
    (h : utf8DecodeOne b rest = some (c, rest2)) : rest2.length ≤ rest.length := by
  rw [utf8DecodeOne.eq_def] at h
  split_ifs at h with h1 h2 h3 h4 h5
  · obtain ⟨_, h6⟩ := Prod.mk.injEq .. ▸ Option.some.inj h
    simp [← h6]
  · rcases hr : rest with _ | ⟨b1, r2⟩ <;> rw [hr] at h
    · simp at h
    · dsimp only at h
      split_ifs at h with hc
      obtain ⟨_, h6⟩ := Prod.mk.injEq .. ▸ Option.some.inj h
      simp [← h6, hr]
  · rcases hr : rest with _ | ⟨b1, _ | ⟨b2, r2⟩⟩ <;> rw [hr] at h
    · simp at h
    · simp at h
    · dsimp only at h
      split_ifs at h with hc
      obtain ⟨_, h6⟩ := Prod.mk.injEq .. ▸ Option.some.inj h
      rw [← h6]
      simp only [List.length_cons]
      omega
  · rcases hr : rest with _ | ⟨b1, _ | ⟨b2, _ | ⟨b3, r2⟩⟩⟩ <;> rw [hr] at h
    · simp at h
    · simp at h
    · simp at h
    · dsimp only at h
      split_ifs at h with hc
      obtain ⟨_, h6⟩ := Prod.mk.injEq .. ▸ Option.some.inj h
      rw [← h6]
      simp only [List.length_cons]
      omega

theorem utf8DecodeGo_fuel : ∀ (fuel : Nat) (l : List Nat), l.length ≤ fuel →
    utf8DecodeGo fuel l = utf8DecodeGo l.length l := by
  intro fuel
  induction fuel using Nat.strong_induction_on with
  | _ fuel ih =>
    intro l hl
    cases l with
    | nil => cases fuel <;> rfl
    | cons b rest =>
      cases fuel with
      | zero => simp at hl
      | succ f =>
        simp only [List.length_cons]
        rw [utf8DecodeGo, utf8DecodeGo]
        rcases hone : utf8DecodeOne b rest with _ | ⟨c, rest2⟩
        · rfl
        · dsimp only
          have hlen := utf8DecodeOne_length hone
          simp only [List.length_cons] at hl
          rw [ih f (by omega) rest2 (by omega), ih rest.length (by omega) rest2 (by omega)]

theorem utf8Decode_cons (b : Nat) (rest : List Nat) :
    utf8Decode (b :: rest) =
      match utf8DecodeOne b rest with
      | none => none
      | some (c, rest2) => (utf8Decode rest2).map (fun cs => c :: cs) := by
  rw [utf8Decode]
  simp only [List.length_cons]
  rw [utf8DecodeGo]
  rcases hone : utf8DecodeOne b rest with _ | ⟨c, rest2⟩
  · rfl
  · dsimp only
    rw [utf8DecodeGo_fuel rest.length rest2 (utf8DecodeOne_length hone)]
    rfl

theorem utf8Decode_encodeChar_append (c : Char) (rest : List Nat) :
    utf8Decode (encodeChar c ++ rest) = (utf8Decode rest).map (fun cs => c :: cs) := by
  have hlt := char_toNat_lt c
  rw [encodeChar]
  split_ifs with h1 h2 h3
  · show utf8Decode (c.toNat :: rest) = _
    rw [utf8Decode_cons]
    rw [show utf8DecodeOne c.toNat rest = some (c, rest) by
      rw [utf8DecodeOne.eq_def, if_pos h1, Char.ofNat_toNat]]
  · show utf8Decode ((192 + c.toNat / 64) :: ((128 + c.toNat % 64) :: rest)) = _
    rw [utf8Decode_cons]
    rw [show utf8DecodeOne (192 + c.toNat / 64) ((128 + c.toNat % 64) :: rest)
        = some (c, rest) by
      rw [utf8DecodeOne.eq_def]
      rw [if_neg (by omega), if_neg (by omega), if_pos (by omega)]
      dsimp only
      rw [show isCont (128 + c.toNat % 64) = true by
        simp only [isCont, Bool.and_eq_true, decide_eq_true_eq]
        omega]
      rw [if_pos (by decide)]
      rw [show (192 + c.toNat / 64 - 192) * 64 + (128 + c.toNat % 64 - 128) = c.toNat by
        omega]
      rw [Char.ofNat_toNat]]
  · show utf8Decode ((224 + c.toNat / 4096) :: ((128 + c.toNat / 64 % 64) ::
        ((128 + c.toNat % 64) :: rest))) = _
    rw [utf8Decode_cons]
    rw [show utf8DecodeOne (224 + c.toNat / 4096)
        ((128 + c.toNat / 64 % 64) :: ((128 + c.toNat % 64) :: rest)) = some (c, rest) by
      rw [utf8DecodeOne.eq_def]
      rw [if_neg (by omega), if_neg (by omega), if_neg (by omega), if_pos (by omega)]
      dsimp only
      rw [show isCont (128 + c.toNat / 64 % 64) = true by
        simp only [isCont, Bool.and_eq_true, decide_eq_true_eq]
        omega]
      rw [show isCont (128 + c.toNat % 64) = true by
        simp only [isCont, Bool.and_eq_true, decide_eq_true_eq]
        omega]
      rw [if_pos (by decide)]
      rw [show (224 + c.toNat / 4096 - 224) * 4096 + (128 + c.toNat / 64 % 64 - 128) * 64
          + (128 + c.toNat % 64 - 128) = c.toNat by omega]
      rw [Char.ofNat_toNat]]
  · show utf8Decode ((240 + c.toNat / 262144) :: ((128 + c.toNat / 4096 % 64) ::
        ((128 + c.toNat / 64 % 64) :: ((128 + c.toNat % 64) :: rest)))) = _
    rw [utf8Decode_cons]
    rw [show utf8DecodeOne (240 + c.toNat / 262144)
        ((128 + c.toNat / 4096 % 64) :: ((128 + c.toNat / 64 % 64) ::
          ((128 + c.toNat % 64) :: rest))) = some (c, rest) by
      rw [utf8DecodeOne.eq_def]
      rw [if_neg (by omega), if_neg (by omega), if_neg (by omega), if_neg (by omega),
        if_pos (by omega)]
      dsimp only
      rw [show isCont (128 + c.toNat / 4096 % 64) = true by
        simp only [isCont, Bool.and_eq_true, decide_eq_true_eq]
        omega]
      rw [show isCont (128 + c.toNat / 64 % 64) = true by
        simp only [isCont, Bool.and_eq_true, decide_eq_true_eq]
        omega]
      rw [show isCont (128 + c.toNat % 64) = true by
        simp only [isCont, Bool.and_eq_true, decide_eq_true_eq]
        omega]
      rw [if_pos (by decide)]
      rw [show (240 + c.toNat / 262144 - 240) * 262144 + (128 + c.toNat / 4096 % 64 - 128) * 4096
          + (128 + c.toNat / 64 % 64 - 128) * 64 + (128 + c.toNat % 64 - 128) = c.toNat by
        omega]
      rw [Char.ofNat_toNat]]

theorem utf8Decode_utf8Encode (cs : List Char) :
    utf8Decode (utf8Encode cs) = some cs := by
  induction cs with
  | nil => rfl
  | cons c cs ih =>
    rw [utf8Encode, utf8Decode_encodeChar_append, ih, Option.map_some']

/-- Uncaught Python exception kinds relevant to the modelled sessions. -/
inductive PyErr : Type
  | attributeError
  | valueError
  | unicodeDecodeError
deriving DecidableEq

/-- `HPV_ReceiveLpvRequest`: `recv(2).decode('utf-8')` followed by the length
check. A `UnicodeDecodeError` from `decode` is not in the function's `except`
tuple (which names only socket errors), so it propagates. The `(None, None)`
failure value is `(⊥, ⊥)` of `WithBot Char`. -/
def HPV_ReceiveLpvRequest (data : List Nat) :
    Except PyErr (WithBot Char × WithBot Char) :=
  match utf8Decode data with
  | none => Except.error PyErr.unicodeDecodeError
  | some chars =>
    if h : chars.length = 2 then
      Except.ok (↑(chars.get ⟨0, by omega⟩), ↑(chars.get ⟨1, by omega⟩))
    else Except.ok (⊥, ⊥)

/-- `HPV_SendShortestPath`: on `None` it attempts `bytes([-1])`, which raises
`ValueError` (−1 is not a byte value) — an exception absent from the `except`
tuple `(socket.timeout, socket.error, OSError, TypeError)`, so it escapes.
Otherwise `"".join(shortestPath)` raises `TypeError` if any element is `None`
(`⊥`), and `TypeError` IS caught: the handler only logs, so nothing is sent
(`.ok none`). A well-formed path is joined and sent UTF-8 encoded. -/
def HPV_SendShortestPath (shortestPath : Option (List (WithBot Char))) :
    Except PyErr (Option (List Nat)) :=
  match shortestPath with
  | none => Except.error PyErr.valueError
  | some p =>
    if ∀ x ∈ p, x ≠ ⊥ then
      Except.ok (some (utf8Encode (p.map (fun x => x.unbot' 'A'))))
    else Except.ok none

/-- The outcomes of the relay's authority fetch in `main`:
`refused` and `handshakeMismatch` make `HPV_ConnectToCloudServer` return
`None`; `deserializeFail` makes `HPV_ReceiveWeights` return `None`;
`ok weights` is a successful fetch. -/
inductive FetchOutcome : Type
  | refused
  | handshakeMismatch
  | deserializeFail
  | ok (weights : GraphMap Char)

/-- What one iteration of the relay's accept loop did: whether it opened a
connection to the authority, and how the session ended (`.error` is an
uncaught exception crashing the process; `.ok r` finished the iteration with
`r` the bytes sent to the client, `none` meaning no reply was sent). -/
structure IterResult : Type where
  contactedAuthority : Bool
  outcome : Except PyErr (Option (List Nat))

/-- Lift a `Char`-keyed graph to `WithBot Char` nodes: the Python engine's
dictionaries hold the chars of the map together with the possibly-`None`
request values. -/
def liftGraphMap (g : GraphMap Char) : GraphMap (WithBot Char) :=
  g.map (fun e => ((↑e.1.1, ↑e.1.2), e.2))

/-- One iteration of the relay's `while True:` loop in `main`
(`HighPowerVehicle.py`): receive the request, then unconditionally call
`HPV_ConnectToCloudServer`. If the fetch fails the iteration dies with
`AttributeError` — `None.close()` for a failed connection/handshake,
`None.items()` inside `HPV_GetShortestPath` for a failed deserialization.
On a successful fetch the engine runs on the parsed request (which may be
`(⊥, ⊥)`) and the reply is sent with `HPV_SendShortestPath`. -/
def mainIteration (req : List Nat) (fetch : FetchOutcome) : IterResult :=
  match HPV_ReceiveLpvRequest req with
  | Except.error e => ⟨false, Except.error e⟩
  | Except.ok (s, d) =>
    match fetch with
    | FetchOutcome.ok weights =>
      ⟨true, HPV_SendShortestPath (some (HPV_GetShortestPath s d (liftGraphMap weights)))⟩
    | _ => ⟨true, Except.error PyErr.attributeError⟩

/-- The handshake step of `CloudServer_WaitForConnection`: receive the probe,
decode it as UTF-8 (an ill-formed probe raises `UnicodeDecodeError`, which the
`except` tuple — socket errors only — does not catch), and send the re-encoded
text back. -/
def CloudServer_WaitForConnection (probe : List Nat) : Except PyErr (List Nat) :=
  match utf8Decode probe with
  | none => Except.error PyErr.unicodeDecodeError
  | some cs => Except.ok (utf8Encode cs)

/-- One natural number as a self-describing byte string: digit count followed
by little-endian base-256 digits. -/
def encNat (n : Nat) : List Nat :=
  (Nat.digits 256 n).length :: Nat.digits 256 n

/-- Decode one `encNat`-encoded number, returning it with the leftover bytes. -/
def decNat : List Nat → Option (Nat × List Nat)
  | [] => none
  | len :: rest =>
    if len ≤ rest.length then some (Nat.ofDigits 256 (rest.take len), rest.drop len)
    else none

/-- Entry-list part of the graph serialization: `u, v, w` for each edge. -/
def serializeEntries : GraphMap Char → List Nat
  | [] => []
  | ((u, v), w) :: rest =>
    encNat u.toNat ++ (encNat v.toNat ++ (encNat w ++ serializeEntries rest))

/-- Modelled from the spec: the graph serialization `CloudServer_SendWeights`
performs with `pickle.dumps` — per §4.2, "serialize the full edge set
(pair-of-nodes → weight mapping) into a self-describing binary encoding".
`pickle` is Python library code, not part of this repository's sources, so
its byte format is modelled: an entry count followed by the encoded entries. -/
def CloudServer_SendWeights (g : GraphMap Char) : List Nat :=
  encNat g.length ++ serializeEntries g

/-- Decode `count` serialized entries, requiring exact consumption. -/
def deserializeEntries : Nat → List Nat → Option (GraphMap Char)
  | 0, l => if l.isEmpty then some [] else none
  | k + 1, l =>
    match decNat l with
    | none => none
    | some (u, l1) =>
      match decNat l1 with
      | none => none
      | some (v, l2) =>
        match decNat l2 with
        | none => none
        | some (w, l3) =>
          match deserializeEntries k l3 with
          | none => none
          | some rest => some (((Char.ofNat u, Char.ofNat v), w) :: rest)

/-- Modelled from the spec: the deserialization `HPV_ReceiveWeights` performs
with `pickle.loads` (§4.3 step 3, "read the serialized graph and deserialize
it"); `none` models the deserialization failure that makes the Python helper
return `None`. -/
def HPV_ReceiveWeights (bytes : List Nat) : Option (GraphMap Char) :=
  match decNat bytes with
  | none => none
  | some (k, rest) => deserializeEntries k rest

theorem decNat_encNat (n : Nat) (rest : List Nat) :
    decNat (encNat n ++ rest) = some (n, rest) := by
  show decNat ((Nat.digits 256 n).length :: (Nat.digits 256 n ++ rest)) = _
  rw [decNat]
  rw [if_pos (by simp)]
  rw [List.take_left, List.drop_left, Nat.ofDigits_digits]

theorem deserializeEntries_serializeEntries (g : GraphMap Char) :
    deserializeEntries g.length (serializeEntries g) = some g := by
  induction g with
  | nil => rfl
  | cons hd rest ih =>
    obtain ⟨⟨u, v⟩, w⟩ := hd
    show deserializeEntries (rest.length + 1) _ = _
    rw [deserializeEntries, serializeEntries]
    rw [decNat_encNat]
    dsimp only
    rw [decNat_encNat]
    dsimp only
    rw [decNat_encNat]
    dsimp only
    rw [ih]
    dsimp only
    rw [Char.ofNat_toNat, Char.ofNat_toNat]

theorem receiveWeights_sendWeights (g : GraphMap Char) :
    HPV_ReceiveWeights (CloudServer_SendWeights g) = some g := by
  rw [HPV_ReceiveWeights, CloudServer_SendWeights, decNat_encNat]
  exact deserializeEntries_serializeEntries g

/-- Two nodes joined by an edge of the map in either direction (edges are
bidirectional). -/
def joinedByEdge {α : Type} (map : GraphMap α) (a b : α) : Prop :=
  ∃ u, ((a, b), u) ∈ map ∨ ((b, a), u) ∈ map

theorem IsWPath.chain_map {α : Type} [LinearOrder α] {map : GraphMap α}
    {a b : α} {p : List α} {w : Nat} (h : IsWPath (buildAdj map) a p b w) :
    List.Chain' (joinedByEdge map) p := by
  refine h.chain.imp ?_
  rintro x y ⟨u, hu⟩
  exact ⟨u, (buildAdj_mem_iff map x y u).mp hu⟩

/-- C1: on every graph map with non-negative integer weights, for every pair
(s, d) with d reachable from s, `HPV_GetShortestPath s d map` returns a
sequence starting at s, ending at d, whose consecutive elements are joined by
an edge of the map (in either direction), and whose total traversed weight is
the minimum walk weight from s to d. -/
theorem HPV_GetShortestPath_correct {α : Type} [LinearOrder α] (map : GraphMap α)
    (s d : α) (h : ∃ p w, IsWPath (buildAdj map) s p d w) :
    (HPV_GetShortestPath s d map).head? = some s ∧
    (HPV_GetShortestPath s d map).getLast? = some d ∧
    List.Chain' (joinedByEdge map) (HPV_GetShortestPath s d map) ∧
    ∃ w, IsWPath (buildAdj map) s (HPV_GetShortestPath s d map) d w ∧
      ∀ q w', IsWPath (buildAdj map) s q d w' → w ≤ w' := by
  obtain ⟨wd, hp, hmin⟩ := getShortestPath_reachable map s d h
  exact ⟨hp.head_eq, hp.last_eq, hp.chain_map, wd, hp, hmin⟩

/-- Witness for C1: on the single-edge map A—B of weight 2, the query (A, B)
is reachable and the theorem applies. -/
theorem HPV_GetShortestPath_correct_witness :
    (∃ p w, IsWPath (buildAdj [(('A', 'B'), 2)]) 'A' p 'B' w) ∧
    ((HPV_GetShortestPath 'A' 'B' [(('A', 'B'), 2)]).head? = some 'A' ∧
     (HPV_GetShortestPath 'A' 'B' [(('A', 'B'), 2)]).getLast? = some 'B' ∧
     List.Chain' (joinedByEdge [(('A', 'B'), 2)])
       (HPV_GetShortestPath 'A' 'B' [(('A', 'B'), 2)]) ∧
     ∃ w, IsWPath (buildAdj [(('A', 'B'), 2)]) 'A'
         (HPV_GetShortestPath 'A' 'B' [(('A', 'B'), 2)]) 'B' w ∧
       ∀ q w', IsWPath (buildAdj [(('A', 'B'), 2)]) 'A' q 'B' w' → w ≤ w') :=
  ⟨⟨['A', 'B'], 2, IsWPath.cons
      (show ('B', (2 : Nat)) ∈ buildAdj [(('A', 'B'), 2)] 'A' by decide)
      (IsWPath.refl 'B')⟩,
    HPV_GetShortestPath_correct [(('A', 'B'), 2)] 'A' 'B'
      ⟨['A', 'B'], 2, IsWPath.cons
        (show ('B', (2 : Nat)) ∈ buildAdj [(('A', 'B'), 2)] 'A' by decide)
        (IsWPath.refl 'B')⟩⟩

/-- C5: for every graph map and every pair (s, d) with d unreachable from s —
including when s or d appears in no edge — `HPV_GetShortestPath s d map`
returns the empty sequence (the embedding is a total function, so in
particular no exception is raised; unknown nodes have no incident edges). -/
theorem HPV_GetShortestPath_noPath {α : Type} [LinearOrder α] (map : GraphMap α)
    (s d : α) (h : ¬ ∃ p w, IsWPath (buildAdj map) s p d w) :
    HPV_GetShortestPath s d map = [] :=
  getShortestPath_unreachable map s d h

/-- Witness for C5: on the single-edge map A—B, node C is unreachable from A
(every walk ends at the source or at a node of the map). -/
theorem HPV_GetShortestPath_noPath_witness :
    (¬ ∃ p w, IsWPath (buildAdj [(('A', 'B'), 1)]) 'A' p 'C' w) ∧
    HPV_GetShortestPath 'A' 'C' [(('A', 'B'), 1)] = [] := by
  have hn : ¬ ∃ p w, IsWPath (buildAdj [(('A', 'B'), 1)]) 'A' p 'C' w := by
    rintro ⟨p, w, hp⟩
    rcases hp.last_mem_nodes with h1 | h2
    · exact absurd h1 (by decide)
    · exact absurd h2 (by decide)
  exact ⟨hn, HPV_GetShortestPath_noPath [(('A', 'B'), 1)] 'A' 'C' hn⟩

/-- C6: for every graph map and every node s present in the graph,
`HPV_GetShortestPath s s map` returns the single-node sequence [s], a walk of
total traversed weight 0. -/
theorem HPV_GetShortestPath_selfQuery {α : Type} [LinearOrder α]
    (map : GraphMap α) (s : α) (h : s ∈ nodesOf map) :
    HPV_GetShortestPath s s map = [s] ∧ IsWPath (buildAdj map) s [s] s 0 :=
  ⟨getShortestPath_self map s, IsWPath.refl s⟩

/-- Witness for C6: node B is present in the reference topology. -/
theorem HPV_GetShortestPath_selfQuery_witness :
    'B' ∈ nodesOf CloudServer_GlobalGraph ∧
    (HPV_GetShortestPath 'B' 'B' CloudServer_GlobalGraph = ['B'] ∧
      IsWPath (buildAdj CloudServer_GlobalGraph) 'B' ['B'] 'B' 0) :=
  ⟨by decide, HPV_GetShortestPath_selfQuery CloudServer_GlobalGraph 'B' (by decide)⟩

/-- C10: for every graph map and every node s — present in the map or not —
`HPV_GetShortestPath s s map` returns [s]: the destination check on the
popped frontier entry precedes the staleness check and any adjacency lookup,
so a source-equals-destination query never returns the no-path result. -/
theorem HPV_GetShortestPath_selfQuery_always {α : Type} [LinearOrder α]
    (map : GraphMap α) (s : α) : HPV_GetShortestPath s s map = [s] :=
  getShortestPath_self map s

/-- C7: on the reference topology, the query (B, A) yields the path B, D, A:
it starts at B, ends at A, and its consecutive-edge weights sum to 3
(D—B at 2 plus A—D at 1, beating the direct A—B edge of cost 6). -/
theorem referenceTopology_query_BA :
    HPV_GetShortestPath 'B' 'A' CloudServer_GlobalGraph = ['B', 'D', 'A'] ∧
    (['B', 'D', 'A'] : List Char).head? = some 'B' ∧
    (['B', 'D', 'A'] : List Char).getLast? = some 'A' ∧
    IsWPath (buildAdj CloudServer_GlobalGraph) 'B' ['B', 'D', 'A'] 'A' 3 := by
  refine ⟨?_, rfl, rfl, ?_⟩
  · exact dijkstraFuel_sound CloudServer_GlobalGraph 'A' 30 _ _ _ (by decide)
  · exact IsWPath.cons
      (show ('D', (2 : Nat)) ∈ buildAdj CloudServer_GlobalGraph 'B' by decide)
      (IsWPath.cons
        (show ('A', (1 : Nat)) ∈ buildAdj CloudServer_GlobalGraph 'D' by decide)
        (IsWPath.refl 'A'))

/-- C2 (code bug): when no path exists, `HPV_GetShortestPath` returns `[]`
(not `None`), so `main` hands `[]` to `HPV_SendShortestPath`, which joins it
into the empty string and sends zero bytes — not the documented single
sentinel byte 255. The `shortestPath is None` branch that the docstring says
"sends an error code" would execute `bytes([-1])`, which raises an uncaught
`ValueError` (−1 is not a valid byte value, and `ValueError` is not in the
`except` tuple). -/
theorem noPathReply_code_bug :
    HPV_GetShortestPath 'A' 'C' [(('A', 'B'), 1)] = [] ∧
    HPV_SendShortestPath (some []) = Except.ok (some []) ∧
    HPV_SendShortestPath none = Except.error PyErr.valueError := by
  refine ⟨?_, ?_, rfl⟩
  · exact dijkstraFuel_sound [(('A', 'B'), 1)] 'C' 10 _ _ _ (by decide)
  · rw [HPV_SendShortestPath]
    rw [if_pos (by simp)]
    rfl

/-- C3 (code bug): for every client request and every failing outcome of the
authority fetch, the relay's loop iteration dies with an uncaught
`AttributeError` instead of continuing: `CloudServerSocket.close()` is called
unconditionally on the `None` returned after a refused connection or a
handshake mismatch, and a failed deserialization passes `None` into
`HPV_GetShortestPath`, whose `None.items()` raises. -/
theorem authorityFetchFailure_crashes (cs : List Char) :
    (mainIteration (utf8Encode cs) FetchOutcome.refused).outcome
        = Except.error PyErr.attributeError ∧
    (mainIteration (utf8Encode cs) FetchOutcome.handshakeMismatch).outcome
        = Except.error PyErr.attributeError ∧
    (mainIteration (utf8Encode cs) FetchOutcome.deserializeFail).outcome
        = Except.error PyErr.attributeError := by
  have hrecv : ∃ sd, HPV_ReceiveLpvRequest (utf8Encode cs) = Except.ok sd := by
    rw [HPV_ReceiveLpvRequest, utf8Decode_utf8Encode]
    dsimp only
    split_ifs <;> exact ⟨_, rfl⟩
  obtain ⟨⟨s, d⟩, hsd⟩ := hrecv
  refine ⟨?_, ?_, ?_⟩ <;>
  · unfold mainIteration
    rw [hsd]

/-- C4 counterexample: on the one-byte request "B" the parse does report
failure, but the relay still opens the connection to the authority
(`main` calls `HPV_ConnectToCloudServer` unconditionally), and when that
fetch fails the iteration crashes — contradicting "does not open a connection
to the authority" and the unconditional "does not crash". -/
theorem malformedRequest_counterexample :
    HPV_ReceiveLpvRequest (utf8Encode ['B']) = Except.ok (⊥, ⊥) ∧
    (mainIteration (utf8Encode ['B'])
      (FetchOutcome.ok CloudServer_GlobalGraph)).contactedAuthority = true ∧
    (mainIteration (utf8Encode ['B']) FetchOutcome.refused).outcome
      = Except.error PyErr.attributeError :=
  ⟨rfl, rfl, rfl⟩

/-- C4 (amended): for every client request that decodes to fewer than two
characters, the parse reports failure (`(None, None)`, i.e. `(⊥, ⊥)`); the
relay nevertheless still opens a connection to the authority, and when the
authority fetch succeeds it sends no reply bytes to the client and the
iteration completes without crashing (the `TypeError` raised by joining the
degenerate `[None]` path is caught). -/
theorem malformedRequest_aborts_session (cs : List Char) (g : GraphMap Char)
    (h : cs.length < 2) :
    HPV_ReceiveLpvRequest (utf8Encode cs) = Except.ok (⊥, ⊥) ∧
    (mainIteration (utf8Encode cs) (FetchOutcome.ok g)).contactedAuthority = true ∧
    (mainIteration (utf8Encode cs) (FetchOutcome.ok g)).outcome = Except.ok none := by
  have hrecv : HPV_ReceiveLpvRequest (utf8Encode cs) = Except.ok (⊥, ⊥) := by
    rw [HPV_ReceiveLpvRequest, utf8Decode_utf8Encode]
    dsimp only
    rw [dif_neg (by omega)]
  refine ⟨hrecv, ?_, ?_⟩
  · unfold mainIteration
    rw [hrecv]
  · unfold mainIteration
    rw [hrecv]
    dsimp only
    rw [getShortestPath_self, HPV_SendShortestPath]
    rw [if_neg (by simp)]

/-- Witness for C4 (amended): the one-byte request "B" with the reference
topology. -/
theorem malformedRequest_aborts_session_witness :
    (['B'] : List Char).length < 2 ∧
    (HPV_ReceiveLpvRequest (utf8Encode ['B']) = Except.ok (⊥, ⊥) ∧
     (mainIteration (utf8Encode ['B'])
       (FetchOutcome.ok CloudServer_GlobalGraph)).contactedAuthority = true ∧
     (mainIteration (utf8Encode ['B'])
       (FetchOutcome.ok CloudServer_GlobalGraph)).outcome = Except.ok none) :=
  ⟨by decide, malformedRequest_aborts_session ['B'] CloudServer_GlobalGraph (by decide)⟩

/-- C8 (spec-modelled serialization): serializing a non-empty edge-set mapping
as the authority does and deserializing the bytes as the relay does reproduces
the original mapping exactly. -/
theorem graph_roundtrip (g : GraphMap Char) (h : g ≠ []) :
    HPV_ReceiveWeights (CloudServer_SendWeights g) = some g :=
  receiveWeights_sendWeights g

/-- Witness for C8: the round trip on a concrete one-edge mapping. -/
theorem graph_roundtrip_witness :
    ([(('A', 'B'), 1)] : GraphMap Char) ≠ [] ∧
    HPV_ReceiveWeights (CloudServer_SendWeights [(('A', 'B'), 1)])
      = some [(('A', 'B'), 1)] :=
  ⟨by decide, graph_roundtrip [(('A', 'B'), 1)] (by decide)⟩

/-- C9 counterexample: the probe consisting of the single byte 0x80 is not
valid UTF-8, so the authority's handshake step raises `UnicodeDecodeError`
(uncaught — the `except` tuple names only socket errors) and echoes nothing,
refuting "for every probe message ... sends back exactly the same bytes". -/
theorem handshakeEcho_counterexample :
    CloudServer_WaitForConnection [128] = Except.error PyErr.unicodeDecodeError ∧
    ∀ bs : List Nat, (Except.error PyErr.unicodeDecodeError : Except PyErr (List Nat))
      ≠ Except.ok bs :=
  ⟨rfl, fun bs h => Except.noConfusion h⟩

/-- C9 (amended): for every probe that is a valid UTF-8 encoding of a
character sequence — which includes every probe the relay actually sends —
the authority echoes exactly the same bytes, and the initiator's decode of
the echo matches the text it sent, so its comparison succeeds. -/
theorem handshakeEcho_validProbe (cs : List Char) :
    CloudServer_WaitForConnection (utf8Encode cs) = Except.ok (utf8Encode cs) ∧
    utf8Decode (utf8Encode cs) = some cs := by
  constructor
  · unfold CloudServer_WaitForConnection
    rw [utf8Decode_utf8Encode]
  · exact utf8Decode_utf8Encode cs
